import Mathlib

/-!
# Verification of the `mcp_server` word-index engine

Shallow embedding of the core index engine of `src/mcp_server/src/main.rs`
(`WordIndex::new`, `WordIndex::search`, `WordIndex::fetch`) and proofs of the
behavioral contracts stated for it.

Modelling conventions:
* A Rust `String` / `&str` is modelled as a `List ℕ` of Unicode scalar values
  (one `ℕ` per `char`).  `str` converts a Lean string literal to this form.
* `HashMap<String, Vec<usize>>` is modelled as a lookup function
  `List ℕ → Option (List ℕ)`: `HashMap::get` returns `none` exactly when the
  key is absent.  In `WordIndex::new` a key exists iff at least one push
  happened on it (`index.entry(word).or_default().push(line_num)` inserts the
  key and immediately pushes), so the constructed map sends a token to `none`
  iff its occurrence list is empty; the per-key `Vec` holds the pushes in
  traversal order (line-major, then word order within the line).
* `HashSet<usize>` is modelled as a duplicate-free `List ℕ` considered up to
  order: `collect()` from a vector is `List.dedup`, `contains` is membership,
  `retain` is `List.filter`.  Every observation the code makes of the set is
  order-insensitive (its final `into_iter().collect()` + `sort_unstable()` is
  the ascending enumeration of the set, embedded as `List.insertionSort`, a
  comparison sort like `sort_unstable`), so the representative order chosen by
  the model is not observable.
* File I/O is outside the model: `WordIndex::new` is embedded as a function of
  the list of lines read from the file.
-/

/-- Unicode scalar values of a string literal, the `List ℕ` form of a Rust string. -/
def str (s : String) : List ℕ :=
  s.data.map Char.toNat

/-- Models Rust `char::is_whitespace` (the Unicode `White_Space` property,
which is exactly the code points listed here).  Used by `split_whitespace`. -/
def isWhitespaceRust (c : ℕ) : Bool :=
  decide ((9 ≤ c ∧ c ≤ 13) ∨ c = 32 ∨ c = 0x85 ∨ c = 0xA0 ∨ c = 0x1680 ∨
    (0x2000 ≤ c ∧ c ≤ 0x200A) ∨ c = 0x2028 ∨ c = 0x2029 ∨ c = 0x202F ∨
    c = 0x205F ∨ c = 0x3000)

/-- Models Rust `char::is_alphanumeric` (`Alphabetic` or `Nd`/`Nl`/`No`),
faithful on the Basic Latin and Latin-1 Supplement blocks (code points
`≤ 0xFF`, the range exercised in this development): ASCII digits and letters,
`ª ² ³ µ ¹ º ¼ ½ ¾`, and the Latin-1 letters `À..ÿ` minus `×` and `÷`.
Code points above `0xFF` are outside the scope of the model. -/
def isAlphanumericRust (c : ℕ) : Bool :=
  decide ((48 ≤ c ∧ c ≤ 57) ∨ (65 ≤ c ∧ c ≤ 90) ∨ (97 ≤ c ∧ c ≤ 122) ∨
    c = 0xAA ∨ c = 0xB2 ∨ c = 0xB3 ∨ c = 0xB5 ∨ c = 0xB9 ∨ c = 0xBA ∨
    (0xBC ≤ c ∧ c ≤ 0xBE) ∨ (0xC0 ≤ c ∧ c ≤ 0xFF ∧ c ≠ 0xD7 ∧ c ≠ 0xF7))

/-- Models Rust `str::to_lowercase` per scalar value, faithful on code points
`≤ 0xFF` where Unicode lowercasing is pointwise: `A..Z` and the Latin-1
uppercase letters `À..Þ` (minus `×`) shift down by 32; everything else in the
modelled range (including `ß`, which is already lowercase) is fixed.  Code
points above `0xFF` are outside the scope of the model and left fixed. -/
def toLowercaseRust (c : ℕ) : ℕ :=
  if (65 ≤ c ∧ c ≤ 90) ∨ (192 ≤ c ∧ c ≤ 222 ∧ c ≠ 215) then c + 32 else c

/-- Accumulator form of `split_whitespace`: `acc` holds the reversed current
word.  Runs of whitespace separate words; no empty word is emitted. -/
def wordsAux : List ℕ → List ℕ → List (List ℕ)
  | [], acc => if acc.isEmpty then [] else [acc.reverse]
  | c :: cs, acc =>
    if isWhitespaceRust c then
      if acc.isEmpty then wordsAux cs [] else acc.reverse :: wordsAux cs []
    else
      wordsAux cs (c :: acc)

/-- Models Rust `str::split_whitespace`: the maximal whitespace-free runs of
the string, in order, with empty runs dropped. -/
def splitWhitespace (s : List ℕ) : List (List ℕ) :=
  wordsAux s []

/-- The per-word normalization both `WordIndex::new` and `WordIndex::search`
apply: `word.to_lowercase().chars().filter(|c| c.is_alphanumeric()).collect()`. -/
def normalizeWord (w : List ℕ) : List ℕ :=
  (w.map toLowercaseRust).filter isAlphanumericRust

/-- The tokenization pipeline, written out identically in `WordIndex::new`
(lines 82–90) and `WordIndex::search` (lines 101–110):
`split_whitespace().map(normalize).filter(|word| !word.is_empty())`. -/
def tokenize (s : List ℕ) : List (List ℕ) :=
  ((splitWhitespace s).map normalizeWord).filter (fun w => !w.isEmpty)

/-- The `Vec<usize>` accumulated for key `token` by the loop in
`WordIndex::new`: one push of the line number per occurrence of `token`
among the line's tokens, lines in read order. -/
def occList (sourceLines : List (List ℕ)) (token : List ℕ) : List ℕ :=
  (sourceLines.enum.map fun p =>
    ((tokenize p.2).filter fun w => w == token).map fun _ => p.1).flatten

/-- The `WordIndex` struct: the corpus `lines` and the inverted `index`. -/
structure WordIndex where
  lines : List (List ℕ)
  index : List ℕ → Option (List ℕ)

/-- `WordIndex::new`, as a function of the lines read from the source file
(I/O errors propagate before any `WordIndex` exists and are outside the
model).  A token is a key of the `HashMap` iff the loop pushed at least once
on it, and its `Vec` is then its (nonempty) occurrence list. -/
def WordIndex.new (sourceLines : List (List ℕ)) : WordIndex where
  lines := sourceLines
  index := fun token =>
    if (occList sourceLines token).isEmpty then none
    else some (occList sourceLines token)

/-- The loop of `WordIndex::search` over the normalized query words.
`acc` is `result_line_nums : Option<HashSet<usize>>`; a word absent from the
index returns `Vec::new()` at once; otherwise the accumulator is initialized
with the word's set or `retain`ed to the members of the word's set; at the
end `Some` is sorted ascending and `None` yields `Vec::new()`. -/
def searchLoop (idx : WordIndex) : List (List ℕ) → Option (List ℕ) → List ℕ
  | [], none => []
  | [], some s => List.insertionSort (· ≤ ·) s
  | w :: ws, acc =>
    match idx.index w with
    | none => []
    | some lineNums =>
      match acc with
      | none => searchLoop idx ws (some lineNums.dedup)
      | some s => searchLoop idx ws (some (s.filter fun n => decide (n ∈ lineNums.dedup)))

/-- `WordIndex::search`: tokenize the query; an empty token list returns the
empty vector; otherwise run the intersection loop. -/
def WordIndex.search (idx : WordIndex) (query : List ℕ) : List ℕ :=
  let queryWords := tokenize query
  if queryWords.isEmpty then [] else searchLoop idx queryWords none

/-- `WordIndex::fetch`: the stored line when `line_number < self.lines.len()`,
`None` otherwise. -/
def WordIndex.fetch (idx : WordIndex) (n : ℕ) : Option (List ℕ) :=
  if h : n < idx.lines.length then some (idx.lines.get ⟨n, h⟩) else none

/-- The spec's wording of normalization for claim C5 (comparison definition
for the refinement claim only): keep only ASCII letters and ASCII digits. -/
def isAsciiAlphanumeric (c : ℕ) : Bool :=
  decide ((48 ≤ c ∧ c ≤ 57) ∨ (65 ≤ c ∧ c ≤ 90) ∨ (97 ≤ c ∧ c ≤ 122))

/-- The spec's wording of per-word normalization for claim C5 (comparison
definition for the refinement claim only): the word lowercased with every
character that is not an ASCII letter or ASCII digit removed. -/
def normalizeWordAsciiSpec (w : List ℕ) : List ℕ :=
  (w.map toLowercaseRust).filter isAsciiAlphanumeric

/-- A token: a nonempty word that the normalizer fixes (lowercase,
all-alphanumeric). -/
def IsToken (w : List ℕ) : Prop :=
  w ≠ [] ∧ normalizeWord w = w

section CharLemmas

theorem alnum_not_ws {c : ℕ} (h : isAlphanumericRust c = true) :
    isWhitespaceRust c = false := by
  simp only [isAlphanumericRust, decide_eq_true_eq] at h
  simp only [isWhitespaceRust, decide_eq_false_iff_not]
  omega

theorem toLower_ws (c : ℕ) :
    isWhitespaceRust (toLowercaseRust c) = isWhitespaceRust c := by
  simp only [toLowercaseRust, isWhitespaceRust]
  split
  · rw [decide_eq_decide]
    omega
  · rfl

theorem toLower_idem (c : ℕ) :
    toLowercaseRust (toLowercaseRust c) = toLowercaseRust c := by
  simp only [toLowercaseRust]
  split
  · split <;> omega
  · rfl

theorem toLower_ascii {c : ℕ} (h : c < 128) : toLowercaseRust c < 128 := by
  simp only [toLowercaseRust]
  split <;> omega

theorem alnum_eq_ascii_of_lt {c : ℕ} (h : c < 128) :
    isAlphanumericRust c = isAsciiAlphanumeric c := by
  simp only [isAlphanumericRust, isAsciiAlphanumeric, decide_eq_decide]
  omega

end CharLemmas

section SplitLemmas

theorem wordsAux_cons_ws {c : ℕ} (hc : isWhitespaceRust c = true) (cs acc) :
    wordsAux (c :: cs) acc =
      if acc.isEmpty then wordsAux cs [] else acc.reverse :: wordsAux cs [] := by
  simp [wordsAux, hc]

theorem wordsAux_cons_nonws {c : ℕ} (hc : isWhitespaceRust c = false) (cs acc) :
    wordsAux (c :: cs) acc = wordsAux cs (c :: acc) := by
  simp [wordsAux, hc]

theorem wordsAux_append_nonws {w : List ℕ} (hw : ∀ c ∈ w, isWhitespaceRust c = false) :
    ∀ s acc, wordsAux (w ++ s) acc = wordsAux s (w.reverse ++ acc) := by
  induction w with
  | nil => intro s acc; simp
  | cons c w ih =>
    intro s acc
    rw [List.cons_append, wordsAux_cons_nonws (hw c (List.mem_cons_self c w)),
      ih (fun d hd => hw d (List.mem_cons_of_mem c hd))]
    simp

theorem splitWhitespace_single {w : List ℕ} (hne : w ≠ [])
    (hw : ∀ c ∈ w, isWhitespaceRust c = false) : splitWhitespace w = [w] := by
  have h := wordsAux_append_nonws hw [] []
  simp only [List.append_nil] at h
  simp only [splitWhitespace, h, wordsAux]
  rw [if_neg, List.reverse_reverse]
  simpa using hne

theorem splitWhitespace_pair {a b : List ℕ} (hane : a ≠ []) (hbne : b ≠ [])
    (ha : ∀ c ∈ a, isWhitespaceRust c = false)
    (hb : ∀ c ∈ b, isWhitespaceRust c = false) :
    splitWhitespace (a ++ 32 :: b) = [a, b] := by
  have h := wordsAux_append_nonws ha (32 :: b) []
  simp only [List.append_nil] at h
  simp only [splitWhitespace, h]
  rw [wordsAux_cons_ws (by decide)]
  rw [if_neg (by simpa using hane), List.reverse_reverse]
  have hsb : splitWhitespace b = [b] := splitWhitespace_single hbne hb
  simpa [splitWhitespace] using hsb

theorem wordsAux_all_ws {s : List ℕ} (hs : ∀ c ∈ s, isWhitespaceRust c = true) :
    wordsAux s [] = [] := by
  induction s with
  | nil => rfl
  | cons c cs ih =>
    rw [wordsAux_cons_ws (hs c (List.mem_cons_self c cs))]
    simp [ih fun d hd => hs d (List.mem_cons_of_mem c hd)]

theorem mem_wordsAux_subset {c : ℕ} :
    ∀ {s acc w : List ℕ}, w ∈ wordsAux s acc → c ∈ w → c ∈ s ∨ c ∈ acc := by
  intro s
  induction s with
  | nil =>
    intro acc w hw hc
    simp only [wordsAux] at hw
    split at hw
    · simp at hw
    · right
      rw [List.mem_singleton.mp hw] at hc
      simpa using hc
  | cons d ds ih =>
    intro acc w hw hc
    by_cases hd : isWhitespaceRust d = true
    · rw [wordsAux_cons_ws hd] at hw
      split at hw
      · rcases ih hw hc with h | h
        · exact Or.inl (List.mem_cons_of_mem d h)
        · simp at h
      · rcases List.mem_cons.mp hw with rfl | hw2
        · right; simpa using hc
        · rcases ih hw2 hc with h | h
          · exact Or.inl (List.mem_cons_of_mem d h)
          · simp at h
    · rw [wordsAux_cons_nonws (Bool.not_eq_true _ ▸ hd)] at hw
      rcases ih hw hc with h | h
      · exact Or.inl (List.mem_cons_of_mem d h)
      · rcases List.mem_cons.mp h with rfl | h2
        · exact Or.inl (List.mem_cons_self c ds)
        · exact Or.inr h2

theorem mem_splitWhitespace_subset {c : ℕ} {s w : List ℕ}
    (hw : w ∈ splitWhitespace s) (hc : c ∈ w) : c ∈ s := by
  rcases mem_wordsAux_subset hw hc with h | h
  · exact h
  · simp at h

theorem wordsAux_map {f : ℕ → ℕ} (hf : ∀ c, isWhitespaceRust (f c) = isWhitespaceRust c) :
    ∀ s acc, wordsAux (s.map f) (acc.map f) = (wordsAux s acc).map (List.map f) := by
  intro s
  induction s with
  | nil =>
    intro acc
    cases acc <;> simp [wordsAux]
  | cons c cs ih =>
    intro acc
    by_cases hc : isWhitespaceRust c = true
    · rw [List.map_cons, wordsAux_cons_ws (by rw [hf]; exact hc), wordsAux_cons_ws hc]
      have h0 := ih []
      simp only [List.map_nil] at h0
      split
      · next he =>
        rw [if_pos (by simpa using he), h0]
      · next he =>
        rw [if_neg (by simpa using he), h0, List.map_cons, List.map_reverse]
    · have hc2 : isWhitespaceRust c = false := Bool.not_eq_true _ ▸ hc
      rw [List.map_cons, wordsAux_cons_nonws (by rw [hf]; exact hc2),
        wordsAux_cons_nonws hc2, ← List.map_cons]
      exact ih (c :: acc)

theorem splitWhitespace_map {f : ℕ → ℕ}
    (hf : ∀ c, isWhitespaceRust (f c) = isWhitespaceRust c) (s : List ℕ) :
    splitWhitespace (s.map f) = (splitWhitespace s).map (List.map f) := by
  have h := wordsAux_map hf s []
  simpa [splitWhitespace] using h

end SplitLemmas

section TokenLemmas

theorem IsToken.mem_alnum {w : List ℕ} (h : IsToken w) :
    ∀ c ∈ w, isAlphanumericRust c = true := by
  intro c hc
  have h2 := h.2
  rw [normalizeWord] at h2
  rw [← h2] at hc
  exact List.of_mem_filter hc

theorem IsToken.mem_not_ws {w : List ℕ} (h : IsToken w) :
    ∀ c ∈ w, isWhitespaceRust c = false :=
  fun c hc => alnum_not_ws (h.mem_alnum c hc)

theorem IsToken.tokenize_self {w : List ℕ} (h : IsToken w) : tokenize w = [w] := by
  have hsp := splitWhitespace_single h.1 h.mem_not_ws
  simp [tokenize, hsp, h.2, h.1]

theorem tokenize_pair {a b : List ℕ} (ha : IsToken a) (hb : IsToken b) :
    tokenize (a ++ 32 :: b) = [a, b] := by
  have hsp := splitWhitespace_pair ha.1 hb.1 ha.mem_not_ws hb.mem_not_ws
  simp [tokenize, hsp, ha.2, hb.2, ha.1, hb.1]

end TokenLemmas

section SearchLemmas

theorem search_eq (idx : WordIndex) (q : List ℕ) :
    idx.search q = if (tokenize q).isEmpty then [] else searchLoop idx (tokenize q) none :=
  rfl

theorem searchLoop_shape (idx : WordIndex) :
    ∀ (ws : List (List ℕ)) (acc : Option (List ℕ)),
      (∀ s, acc = some s → s.Nodup) →
      searchLoop idx ws acc = [] ∨
        ∃ s, s.Nodup ∧ searchLoop idx ws acc = List.insertionSort (· ≤ ·) s := by
  intro ws
  induction ws with
  | nil =>
    intro acc hacc
    match acc with
    | none => exact Or.inl rfl
    | some s => exact Or.inr ⟨s, hacc s rfl, rfl⟩
  | cons w ws ih =>
    intro acc hacc
    simp only [searchLoop]
    cases hidx : idx.index w with
    | none => exact Or.inl rfl
    | some lineNums =>
      match acc with
      | none =>
        exact ih _ fun s hs => by cases hs; exact lineNums.nodup_dedup
      | some s =>
        exact ih _ fun s2 hs2 => by cases hs2; exact (hacc s rfl).filter _

theorem searchLoop_absent (idx : WordIndex) {t : List ℕ} (habs : idx.index t = none) :
    ∀ (ws : List (List ℕ)) (acc : Option (List ℕ)), t ∈ ws → searchLoop idx ws acc = [] := by
  intro ws
  induction ws with
  | nil => intro acc h; simp at h
  | cons w ws ih =>
    intro acc hmem
    simp only [searchLoop]
    rcases List.mem_cons.mp hmem with rfl | h
    · simp [habs]
    · cases hidx : idx.index w with
      | none => rfl
      | some lineNums => cases acc <;> exact ih _ h

theorem mem_searchLoop_some (idx : WordIndex) {n : ℕ} :
    ∀ (ws : List (List ℕ)) (s : List ℕ), n ∈ searchLoop idx ws (some s) → n ∈ s := by
  intro ws
  induction ws with
  | nil =>
    intro s hn
    simp only [searchLoop] at hn
    exact (List.perm_insertionSort (· ≤ ·) s).mem_iff.mp hn
  | cons w ws ih =>
    intro s hn
    simp only [searchLoop] at hn
    cases hidx : idx.index w with
    | none => rw [hidx] at hn; simp at hn
    | some l =>
      rw [hidx] at hn
      exact List.mem_of_mem_filter (ih _ hn)

theorem mem_searchLoop_none (idx : WordIndex) {n : ℕ} {ws : List (List ℕ)}
    (hn : n ∈ searchLoop idx ws none) :
    ∃ t ∈ ws, ∃ l, idx.index t = some l ∧ n ∈ l := by
  cases ws with
  | nil => simp [searchLoop] at hn
  | cons w ws =>
    simp only [searchLoop] at hn
    cases hidx : idx.index w with
    | none => rw [hidx] at hn; simp at hn
    | some l =>
      rw [hidx] at hn
      exact ⟨w, List.mem_cons_self w ws, l, hidx,
        List.mem_dedup.mp (mem_searchLoop_some idx ws _ hn)⟩

end SearchLemmas

theorem search_sorted_aux (idx : WordIndex) (query : List ℕ) :
    (idx.search query).Sorted (· < ·) ∧ (idx.search query).Nodup := by
  rw [search_eq]
  by_cases h : (tokenize query).isEmpty
  · simp [h]
  · rw [if_neg h]
    rcases searchLoop_shape idx (tokenize query) none (by simp) with h2 | ⟨s, hs, h2⟩
    · rw [h2]; simp
    · rw [h2]
      have hsort := List.sorted_insertionSort (· ≤ ·) s
      have hnd : (List.insertionSort (· ≤ ·) s).Nodup :=
        (List.perm_insertionSort (· ≤ ·) s).nodup_iff.mpr hs
      exact ⟨hsort.lt_of_le hnd, hnd⟩

/-- C3: for every query, the sequence returned by `search` is strictly
ascending by line number and duplicate-free (hence deterministic: in this
functional model the same query on the same index always yields the one
sequence this function computes, regardless of the set iteration order the
implementation's `HashSet` would use, since the final `sort_unstable`
normalizes the order). -/
theorem search_sorted_nodup (idx : WordIndex) (query : List ℕ) :
    (idx.search query).Sorted (· < ·) ∧ (idx.search query).Nodup :=
  search_sorted_aux idx query

/-- C6: if any normalized token of the query is absent from the inverted
index, `search` returns the empty sequence, regardless of the other tokens. -/
theorem search_unknown_token_empty (idx : WordIndex) (query t : List ℕ)
    (ht : t ∈ tokenize query) (habs : idx.index t = none) :
    idx.search query = [] := by
  rw [search_eq]
  by_cases h : (tokenize query).isEmpty
  · simp [h]
  · rw [if_neg h]
    exact searchLoop_absent idx habs _ none ht

/-- C7: every query whose normalized token list is empty — the query is
empty, all-whitespace, or every whitespace-delimited word normalizes to the
empty string — makes `search` return the empty sequence as a success value
(no error outcome exists in the return type). -/
theorem search_trivial_query_empty (idx : WordIndex) (query : List ℕ)
    (h : query = [] ∨ (∀ c ∈ query, isWhitespaceRust c = true) ∨
      ∀ w ∈ splitWhitespace query, normalizeWord w = []) :
    idx.search query = [] := by
  have htok : tokenize query = [] := by
    rcases h with rfl | hws | hnorm
    · rfl
    · simp [tokenize, splitWhitespace, wordsAux_all_ws hws]
    · rw [tokenize, List.filter_eq_nil_iff]
      intro w hw
      rcases List.mem_map.mp hw with ⟨w0, hw0, rfl⟩
      simp [hnorm w0 hw0]
  rw [search_eq, htok]
  rfl

/-- Witness for C6 at a concrete index and query: the token `zzz` is absent,
so the query `hello zzz` returns no lines even though `hello` matches. -/
theorem search_unknown_token_empty_witness :
    (WordIndex.new [str "Hello world!", str "A test line."]).search (str "hello zzz") = [] :=
  search_unknown_token_empty _ _ (str "zzz") (by decide) (by decide)

theorem search_pair_eq_inter (idx : WordIndex) {a b : List ℕ}
    (ha : IsToken a) (hb : IsToken b) :
    idx.search (a ++ 32 :: b) = idx.search a ∩ idx.search b := by
  rw [search_eq, search_eq, search_eq, tokenize_pair ha hb, ha.tokenize_self,
    hb.tokenize_self]
  simp only [List.isEmpty_cons, Bool.false_eq_true, if_false]
  simp only [searchLoop]
  cases hia : idx.index a with
  | none => simp [List.inter_def]
  | some la =>
    cases hib : idx.index b with
    | none => simp [List.inter_def]
    | some lb =>
      rw [List.inter_def]
      simp only [List.elem_eq_mem]
      rw [List.filter_congr
        (fun x _ => decide_eq_decide.mpr (List.perm_insertionSort (· ≤ ·) lb.dedup).mem_iff)]
      exact List.eq_of_perm_of_sorted
        ((List.perm_insertionSort _ _).trans
          (((List.perm_insertionSort (· ≤ ·) la.dedup).symm).filter _))
        (List.sorted_insertionSort _ _)
        ((List.sorted_insertionSort _ _).filter _)

/-- C1: for tokens A and B that each occur in the corpus, `search "A B"`
returns exactly the intersection of the line sets returned by `search A` and
`search B` (the right-hand side below is the intersection of the two returned
lists), sorted ascending.  `32` is the scalar value of the space joining the
two tokens in the query. -/
theorem search_conjunctive (sourceLines : List (List ℕ)) (a b : List ℕ)
    (ha : IsToken a) (hb : IsToken b)
    (_hoa : ∃ line ∈ sourceLines, a ∈ tokenize line)
    (_hob : ∃ line ∈ sourceLines, b ∈ tokenize line) :
    (WordIndex.new sourceLines).search (a ++ 32 :: b) =
      (WordIndex.new sourceLines).search a ∩ (WordIndex.new sourceLines).search b ∧
      ((WordIndex.new sourceLines).search a ∩
        (WordIndex.new sourceLines).search b).Sorted (· < ·) := by
  refine ⟨search_pair_eq_inter _ ha hb, ?_⟩
  rw [← search_pair_eq_inter _ ha hb]
  exact (search_sorted_aux _ _).1

/-- Witness for C1 at a concrete corpus: `hello` matches lines 0, 1, 2 and
`test` matches lines 1, 2, so `search "hello test"` is their intersection. -/
theorem search_conjunctive_witness :
    (WordIndex.new [str "hello world", str "hello test", str "world test hello"]).search
        (str "hello" ++ 32 :: str "test") =
      (WordIndex.new [str "hello world", str "hello test",
          str "world test hello"]).search (str "hello") ∩
        (WordIndex.new [str "hello world", str "hello test",
          str "world test hello"]).search (str "test") ∧
      ((WordIndex.new [str "hello world", str "hello test",
          str "world test hello"]).search (str "hello") ∩
        (WordIndex.new [str "hello world", str "hello test",
          str "world test hello"]).search (str "test")).Sorted (· < ·) :=
  search_conjunctive _ _ _ ⟨by decide, by decide⟩ ⟨by decide, by decide⟩
    ⟨str "hello world", by decide, by decide⟩ ⟨str "hello test", by decide, by decide⟩

/-- C2: `fetch` succeeds with the exact stored line text (including the empty
string for a blank line) for every in-range index, and returns the not-found
outcome `none` for every out-of-range index; being a total function of type
`Option`, it can never abort. -/
theorem fetch_bounds (idx : WordIndex) (n : ℕ) :
    (∀ h : n < idx.lines.length, idx.fetch n = some (idx.lines.get ⟨n, h⟩)) ∧
      (idx.lines.length ≤ n → idx.fetch n = none) := by
  constructor
  · intro h
    rw [WordIndex.fetch, dif_pos h]
  · intro h
    rw [WordIndex.fetch, dif_neg (Nat.not_lt.mpr h)]

/-- Witness for C2 on a two-line corpus whose second line is blank: `fetch 1`
returns the empty string and `fetch 2` returns `none`. -/
theorem fetch_bounds_witness :
    (WordIndex.new [str "Hello world!", str ""]).fetch 1 = some (str "") ∧
      (WordIndex.new [str "Hello world!", str ""]).fetch 2 = none :=
  ⟨(fetch_bounds (WordIndex.new [str "Hello world!", str ""]) 1).1 (by decide),
    (fetch_bounds (WordIndex.new [str "Hello world!", str ""]) 2).2 (by decide)⟩

theorem normalizeWord_map_toLower (w : List ℕ) :
    normalizeWord (w.map toLowercaseRust) = normalizeWord w := by
  rw [normalizeWord, normalizeWord, List.map_map]
  congr 1
  apply List.map_congr_left
  intro c _
  simp only [Function.comp_apply]
  exact toLower_idem c

theorem tokenize_map_toLower (s : List ℕ) :
    tokenize (s.map toLowercaseRust) = tokenize s := by
  rw [tokenize, tokenize, splitWhitespace_map toLower_ws, List.map_map]
  congr 1
  apply List.map_congr_left
  intro w _
  simp only [Function.comp_apply]
  exact normalizeWord_map_toLower w

/-- C8: any two query strings with the same lowercase image — in particular a
word's uppercase form, lowercase form, and every mixed-case variant — return
identical result sequences, on every index (whether or not the word occurs in
the corpus). -/
theorem search_case_invariant (idx : WordIndex) (v w : List ℕ)
    (h : v.map toLowercaseRust = w.map toLowercaseRust) :
    idx.search v = idx.search w := by
  have htok : tokenize v = tokenize w := by
    rw [← tokenize_map_toLower v, h, tokenize_map_toLower w]
  rw [search_eq, search_eq, htok]

/-- Witness for C8: `HELLO`, `hello` and `hElLo` agree on a concrete index. -/
theorem search_case_invariant_witness :
    (WordIndex.new [str "Hello world!", str "say hello"]).search (str "HELLO") =
        (WordIndex.new [str "Hello world!", str "say hello"]).search (str "hello") ∧
      (WordIndex.new [str "Hello world!", str "say hello"]).search (str "hElLo") =
        (WordIndex.new [str "Hello world!", str "say hello"]).search (str "hello") :=
  ⟨search_case_invariant _ _ _ (by decide), search_case_invariant _ _ _ (by decide)⟩

section IndexLemmas

/-- `occList` generalized over the starting index of `enumerate`. -/
def occFrom (k : ℕ) (sourceLines : List (List ℕ)) (token : List ℕ) : List ℕ :=
  (List.enumFrom k sourceLines |>.map fun p =>
    ((tokenize p.2).filter fun w => w == token).map fun _ => p.1).flatten

theorem occList_eq_occFrom (sourceLines : List (List ℕ)) (token : List ℕ) :
    occList sourceLines token = occFrom 0 sourceLines token := by
  rw [occList, occFrom, List.enum_eq_enumFrom]

theorem occFrom_cons (k : ℕ) (l : List ℕ) (ls : List (List ℕ)) (token : List ℕ) :
    occFrom k (l :: ls) token =
      (((tokenize l).filter fun w => w == token).map fun _ => k) ++
        occFrom (k + 1) ls token := by
  rw [occFrom, List.enumFrom_cons, List.map_cons, List.flatten_cons, occFrom]

theorem count_occFrom (token : List ℕ) :
    ∀ (ls : List (List ℕ)) (k i : ℕ),
      (occFrom k ls token).count i =
        if k ≤ i ∧ i - k < ls.length then (tokenize (ls.getD (i - k) [])).count token
        else 0 := by
  intro ls
  induction ls with
  | nil => intro k i; simp [occFrom]
  | cons l ls ih =>
    intro k i
    rw [occFrom_cons, List.count_append]
    have hmap : (((tokenize l).filter fun w => w == token).map fun _ => k) =
        List.replicate ((tokenize l).count token) k := by
      rw [List.count_eq_countP, List.countP_eq_length_filter, List.map_const']
    rw [hmap, List.count_replicate, ih (k + 1) i]
    by_cases hki : k = i
    · subst hki
      rw [if_pos (beq_self_eq_true k), if_neg (by omega),
        if_pos (by simp only [List.length_cons]; omega)]
      simp [Nat.sub_self]
    · rw [if_neg (by simp [hki]), Nat.zero_add]
      by_cases hle : k + 1 ≤ i ∧ i - (k + 1) < ls.length
      · rw [if_pos hle, if_pos (by simp only [List.length_cons]; omega)]
        have e2 : i - k = (i - (k + 1)) + 1 := by omega
        rw [e2, List.getD_cons_succ]
      · rw [if_neg hle, if_neg (by simp only [List.length_cons]; omega)]

theorem count_occList (ls : List (List ℕ)) (token : List ℕ) (i : ℕ) :
    (occList ls token).count i = (tokenize (ls.getD i [])).count token := by
  rw [occList_eq_occFrom, count_occFrom]
  simp only [Nat.zero_le, true_and, Nat.sub_zero]
  by_cases h : i < ls.length
  · rw [if_pos h]
  · rw [if_neg h, List.getD_eq_default _ _ (Nat.le_of_not_lt h)]
    simp [tokenize, splitWhitespace, wordsAux]

theorem mem_occList (ls : List (List ℕ)) (token : List ℕ) (i : ℕ) :
    i ∈ occList ls token ↔ i < ls.length ∧ token ∈ tokenize (ls.getD i []) := by
  rw [← List.count_pos_iff, count_occList]
  by_cases h : i < ls.length
  · simp [h, List.count_pos_iff]
  · rw [List.getD_eq_default _ _ (Nat.le_of_not_lt h)]
    simp only [h, false_and, iff_false, Nat.not_lt]
    simp [tokenize, splitWhitespace, wordsAux]

theorem new_index_eq (ls : List (List ℕ)) (token : List ℕ) :
    (WordIndex.new ls).index token =
      if (occList ls token).isEmpty then none else some (occList ls token) :=
  rfl

theorem nil_not_mem_tokenize (s : List ℕ) : [] ∉ tokenize s := by
  intro h
  have := List.of_mem_filter h
  simp at this

end IndexLemmas

/-- C4 counterexample: on the corpus line `"repeated repeated words."` the
token `repeated` occurs twice, and the constructed index stores line number 0
twice in that token's collection — the collection is not duplicate-free. -/
theorem index_entry_duplicate_cex :
    (WordIndex.new [str "repeated repeated words."]).index (str "repeated") =
        some [0, 0] ∧
      ¬ ([0, 0] : List ℕ).Nodup := by
  exact ⟨by decide, by decide⟩

/-- C4 amended: a token's line-number collection lists a line number once per
occurrence of the token on that line (so a line number can appear more than
once when the token repeats on the line); in particular the set of line
numbers stored is still exactly the set of lines on which the token occurs,
and deduplication happens at query time, not at construction time. -/
theorem index_entry_count (ls : List (List ℕ)) (token : List ℕ) (i : ℕ) :
    (((WordIndex.new ls).index token).getD []).count i =
      (tokenize (ls.getD i [])).count token := by
  rw [new_index_eq]
  by_cases h : (occList ls token).isEmpty
  · rw [if_pos h, Option.getD_none, ← count_occList]
    rw [List.isEmpty_iff] at h
    rw [h]
  · rw [if_neg h, Option.getD_some, count_occList]

/-- C9: in the constructed index every stored line number is a valid corpus
index; a token is a key iff some corpus line produces it after normalization;
and the empty token (the normalization of a word that loses all characters)
is never a key. -/
theorem index_invariants (ls : List (List ℕ)) (token : List ℕ) :
    (∀ l, (WordIndex.new ls).index token = some l → ∀ n ∈ l, n < ls.length) ∧
      ((WordIndex.new ls).index token ≠ none ↔ ∃ line ∈ ls, token ∈ tokenize line) ∧
      (WordIndex.new ls).index [] = none := by
  refine ⟨?_, ?_, ?_⟩
  · intro l hl n hn
    rw [new_index_eq] at hl
    by_cases h : (occList ls token).isEmpty
    · rw [if_pos h] at hl; exact absurd hl (by simp)
    · rw [if_neg h] at hl
      have := Option.some.inj hl
      subst this
      exact ((mem_occList ls token n).mp hn).1
  · rw [new_index_eq]
    by_cases h : (occList ls token).isEmpty
    · rw [if_pos h]
      simp only [ne_eq, not_true_eq_false, false_iff, not_exists]
      rw [List.isEmpty_iff] at h
      intro line hline2
      obtain ⟨hline, hmem⟩ := hline2
      rcases List.mem_iff_getElem.mp hline with ⟨i, hi, rfl⟩
      have : i ∈ occList ls token := by
        rw [mem_occList]
        exact ⟨hi, by rw [List.getD_eq_getElem _ _ hi]; exact hmem⟩
      rw [h] at this
      simp at this
    · rw [if_neg h]
      simp only [ne_eq, reduceCtorEq, not_false_eq_true, true_iff]
      have hne : occList ls token ≠ [] := by
        intro h0; rw [← List.isEmpty_iff] at h0; exact h h0
      rcases List.exists_mem_of_ne_nil _ hne with ⟨i, hi⟩
      rcases (mem_occList ls token i).mp hi with ⟨hlen, hmem⟩
      exact ⟨ls.getD i [], by rw [List.getD_eq_getElem _ _ hlen]; exact List.getElem_mem hlen,
        hmem⟩
  · rw [new_index_eq, if_pos]
    rw [List.isEmpty_iff, List.eq_nil_iff_forall_not_mem]
    intro i hi
    exact nil_not_mem_tokenize _ ((mem_occList ls [] i).mp hi).2

/-- Witness for C9: on the one-line corpus `"hello"` the token `hello` is a
key of the index, by the key-iff-occurrence direction of the invariant. -/
theorem index_invariants_witness :
    (WordIndex.new [str "hello"]).index (str "hello") ≠ none :=
  (index_invariants [str "hello"] (str "hello")).2.1.mpr
    ⟨str "hello", by decide, by decide⟩

/-- C10: every line number returned by `search` on a constructed index is a
valid corpus index, so `fetch` on it returns `some` stored line text. -/
theorem search_results_fetchable (ls : List (List ℕ)) (query : List ℕ) (n : ℕ)
    (hn : n ∈ (WordIndex.new ls).search query) :
    ∃ h : n < ls.length, (WordIndex.new ls).fetch n = some (ls.get ⟨n, h⟩) := by
  rw [search_eq] at hn
  by_cases he : (tokenize query).isEmpty
  · rw [if_pos he] at hn; simp at hn
  · rw [if_neg he] at hn
    obtain ⟨t, _, l, hidx, hnl⟩ := mem_searchLoop_none _ hn
    rw [new_index_eq] at hidx
    by_cases ho : (occList ls t).isEmpty
    · rw [if_pos ho] at hidx; exact absurd hidx (by simp)
    · rw [if_neg ho] at hidx
      have := Option.some.inj hidx
      subst this
      have hb := ((mem_occList ls t n).mp hnl).1
      exact ⟨hb, dif_pos hb⟩

/-- Witness for C10: on the corpus `["hello"]`, `search "hello"` returns line
0 and fetching it succeeds. -/
theorem search_results_fetchable_witness :
    ∃ h : 0 < ([str "hello"]).length,
      (WordIndex.new [str "hello"]).fetch 0 = some (([str "hello"]).get ⟨0, h⟩) :=
  search_results_fetchable [str "hello"] (str "hello") 0 (by decide)

/-- C5 counterexample: the word `é` (U+00E9).  Rust `char::is_alphanumeric`
is Unicode-class, so the code keeps the character and indexes the token `é`,
while the claim's ASCII-class filtering would remove it and discard the
then-empty token. -/
theorem normalize_ascii_cex :
    normalizeWord (str "é") = str "é" ∧ normalizeWordAsciiSpec (str "é") = [] ∧
      tokenize (str "é") = [str "é"] := by
  exact ⟨by decide, by decide, by decide⟩

/-- C5 amended: for whitespace-delimited words made of ASCII characters the
claim holds as stated — the token is the word lowercased with every
character that is not an ASCII letter or digit removed, empty results
discarded; for non-ASCII words the code keeps every Unicode-class
alphanumeric character (e.g. `é`), not only ASCII ones. -/
theorem normalize_ascii_spec (s : List ℕ) (h : ∀ c ∈ s, c < 128) :
    tokenize s =
      ((splitWhitespace s).map normalizeWordAsciiSpec).filter fun w => !w.isEmpty := by
  rw [tokenize]
  congr 1
  apply List.map_congr_left
  intro w hw
  rw [normalizeWord, normalizeWordAsciiSpec]
  apply List.filter_congr
  intro c hc
  rcases List.mem_map.mp hc with ⟨c0, hc0, rfl⟩
  exact alnum_eq_ascii_of_lt (toLower_ascii (h c0 (mem_splitWhitespace_subset hw hc0)))

/-- Witness for C5 (amended) on a concrete ASCII query. -/
theorem normalize_ascii_spec_witness :
    tokenize (str "Hello, World! 123") =
      ((splitWhitespace (str "Hello, World! 123")).map normalizeWordAsciiSpec).filter
        fun w => !w.isEmpty :=
  normalize_ascii_spec _ (by decide)

/-- Witness for C7 at concrete queries: the empty query, the all-whitespace
query, and a query whose only word normalizes to nothing all return `[]`. -/
theorem search_trivial_query_empty_witness :
    (WordIndex.new [str "Hello world!"]).search (str "") = [] ∧
      (WordIndex.new [str "Hello world!"]).search (str "   ") = [] ∧
      (WordIndex.new [str "Hello world!"]).search (str "!?.") = [] :=
  ⟨search_trivial_query_empty _ _ (Or.inl (by decide)),
    search_trivial_query_empty _ _ (Or.inr (Or.inl (by decide))),
    search_trivial_query_empty _ _ (Or.inr (Or.inr (by decide)))⟩
